import Mathlib

/-!
A shallow embedding of the points service (`src/points/points.service.ts`,
plus the unnamed variant of the same service) and proofs about it.

Modelling choices:
* JS numbers are used as integers throughout the service, so amounts and
  timestamps are embedded as `Int` (a `Date` is represented by its
  `getTime()` value).
* A JS `Map` (and a plain object used as a record) preserves key insertion
  order: `set` on an existing key updates it in place, `set` on a fresh key
  appends it.  It is embedded as an association list `List (String × Int)`
  with exactly those semantics (`getA` / `setA`).
* `Array.prototype.sort` with the comparator
  `(a, b) => a.timestamp.getTime() - b.timestamp.getTime()` is a stable sort
  by timestamp; it is embedded as insertion sort by `≤` on timestamps, which
  is the unique stable sort for that comparator.
* Thrown `BadRequestException`s become an `Except SpendError` value; the
  method's effect on the instance field `this.transactions` is made explicit
  by returning the post-call transaction list alongside the result, in both
  the success and the error case (the code throws strictly before any
  mutation, so on the error paths the returned list is the input list).
-/

/-- A stored transaction: `{ payer, points, timestamp }` from
`transaction.interface.ts`, with the `Date` replaced by its numeric time. -/
structure Transaction where
  payer : String
  points : Int
  timestamp : Int
deriving DecidableEq, Repr

/-- `SpendResult` from `spend-result.interface.ts`: which payer's points were
spent and how many (negative value). -/
structure SpendResult where
  payer : String
  points : Int
deriving DecidableEq, Repr

/-- The two `BadRequestException`s thrown by `spendPoints`, with the data
they carry: the invalid-argument message, or the available and requested
figures of the insufficient-funds message. -/
inductive SpendError where
  | invalidArgument : String → SpendError
  | insufficientFunds : Int → Int → SpendError
deriving DecidableEq, Repr

/-- Insertion-ordered map from payer to integer, the embedding of a JS `Map`
(and of the plain object built by `getBalances`). -/
abbrev PayerMap := List (String × Int)

/-- `m.get(k) || 0`: the value stored at the first occurrence of `k`, or `0`
when `k` is absent (`0 || 0` is also `0`, so the embedding agrees with JS on
a stored zero). -/
def getA : PayerMap → String → Int
  | [], _ => 0
  | (k', v) :: m, k => if k' = k then v else getA m k

/-- `m.set(k, v)`: update the first occurrence of `k` in place, or append a
fresh key at the end — JS `Map` insertion-order semantics. -/
def setA : PayerMap → String → Int → PayerMap
  | [], k, v => [(k, v)]
  | (k', v') :: m, k, v => if k' = k then (k, v) :: m else (k', v') :: setA m k v

/-- Sum of the stored values of a map. -/
def sumVals : PayerMap → Int
  | [] => 0
  | pv :: m => pv.2 + sumVals m

/-- Sum of the `points` fields of a transaction list. -/
def sumPoints : List Transaction → Int
  | [] => 0
  | t :: l => t.points + sumPoints l

/-- Sum of the `points` fields of the transactions of one payer. -/
def payerSum (p : String) : List Transaction → Int
  | [] => 0
  | t :: l => (if t.payer = p then t.points else 0) + payerSum p l

/-- `getTotalPoints` of the service:
`this.transactions.reduce((sum, t) => sum + t.points, 0)`. -/
def getTotalPoints (txs : List Transaction) : Int :=
  txs.foldl (fun sum t => sum + t.points) 0

/-- `getPayerBalance` of the unnamed service variant:
`this.transactions.filter(t => t.payer === payer).reduce((sum, t) => sum + t.points, 0)`. -/
def payerBalance (txs : List Transaction) (payer : String) : Int :=
  (txs.filter (fun t => t.payer == payer)).foldl (fun sum t => sum + t.points) 0

/-- The balance-precomputation loop of the named service (`Step 2` of
`spendPoints`): fold the raw transaction list into a payer-balance map. -/
def buildBalanceMap (txs : List Transaction) : PayerMap :=
  txs.foldl (fun m t => setA m t.payer (getA m t.payer + t.points)) []

/-- `getBalances` of the service: a plain object keyed by payer, built by a
single pass (`balances[payer] = (balances[payer] || 0) + t.points`). -/
def getBalances (txs : List Transaction) : PayerMap :=
  txs.foldl (fun b t => setA b t.payer (getA b t.payer + t.points)) []

/-- `addTransaction`: push the new transaction onto the list. -/
def addTransaction (txs : List Transaction) (payer : String) (points timestamp : Int) :
    List Transaction :=
  txs ++ [⟨payer, points, timestamp⟩]

/-- The comparator `(a, b) => a.timestamp.getTime() - b.timestamp.getTime()`
as an ordering relation. -/
def txLe (a b : Transaction) : Prop := a.timestamp ≤ b.timestamp

instance : DecidableRel txLe := fun a b => inferInstanceAs (Decidable (a.timestamp ≤ b.timestamp))

/-- `[...this.transactions].sort((a, b) => a.timestamp.getTime() - b.timestamp.getTime())`:
a stable sort ascending by timestamp. -/
def sortTransactions (txs : List Transaction) : List Transaction :=
  List.insertionSort txLe txs

/-- State of the allocation walk: the `spendingByPayer` map and the
`remainingToSpend` counter. -/
structure AllocState where
  spending : PayerMap
  remaining : Int
deriving DecidableEq, Repr

/-- One iteration of the `for (const transaction of sortedTransactions)` loop
of `spendPoints` (the `break` on `remainingToSpend <= 0` is modelled by
leaving the state unchanged, which leaves every later iteration unchanged
too, since `remaining` is only modified by iterations that enter the body). -/
def allocStep (bal : String → Int) (st : AllocState) (t : Transaction) : AllocState :=
  if st.remaining ≤ 0 then st
  else if 0 < t.points then
    if 0 ≤ bal t.payer - getA st.spending t.payer - min t.points st.remaining then
      ⟨setA st.spending t.payer (getA st.spending t.payer + min t.points st.remaining),
        st.remaining - min t.points st.remaining⟩
    else if 0 < bal t.payer - getA st.spending t.payer then
      ⟨setA st.spending t.payer
          (getA st.spending t.payer + (bal t.payer - getA st.spending t.payer)),
        st.remaining - (bal t.payer - getA st.spending t.payer)⟩
    else st
  else
    if 0 < min (-t.points) (getA st.spending t.payer) then
      ⟨setA st.spending t.payer
          (getA st.spending t.payer - min (-t.points) (getA st.spending t.payer)),
        st.remaining + min (-t.points) (getA st.spending t.payer)⟩
    else st

/-- The whole chronological walk (`Step 4` of `spendPoints`). -/
def allocWalk (bal : String → Int) (txs : List Transaction) (st : AllocState) : AllocState :=
  txs.foldl (allocStep bal) st

/-- `Step 5` of `spendPoints`: convert the spending map to the result array,
keeping only strictly positive spending, negated. -/
def resultOf (m : PayerMap) : List SpendResult :=
  (m.filter (fun pv => decide (0 < pv.2))).map (fun pv => ⟨pv.1, -pv.2⟩)

/-- `spendPoints`, parameterized by the per-payer balance function used in
the walk (the only point where the named and the unnamed service differ).
Returns the thrown error or the result array, together with the post-call
`this.transactions`. -/
def spendPointsWith (bal : String → Int) (txs : List Transaction)
    (pointsToSpend now : Int) :
    Except SpendError (List SpendResult) × List Transaction :=
  if pointsToSpend < 0 then
    (Except.error (SpendError.invalidArgument "Points to spend must be positive"), txs)
  else if getTotalPoints txs < pointsToSpend then
    (Except.error (SpendError.insufficientFunds (getTotalPoints txs) pointsToSpend), txs)
  else
    (Except.ok (resultOf (allocWalk bal (sortTransactions txs) ⟨[], pointsToSpend⟩).spending),
      txs ++ (resultOf (allocWalk bal (sortTransactions txs) ⟨[], pointsToSpend⟩).spending).map
        (fun r => ⟨r.payer, r.points, now⟩))

/-- `spendPoints` of the named `points.service.ts`: the walk reads each
payer's balance from the precomputed balance map. -/
def spendPoints (txs : List Transaction) (pointsToSpend now : Int) :
    Except SpendError (List SpendResult) × List Transaction :=
  spendPointsWith (fun p => getA (buildBalanceMap txs) p) txs pointsToSpend now

/-- `spendPoints` of the unnamed service variant: the walk recomputes each
payer's balance by filtering the (unmutated) transaction list. -/
def spendPointsUnnamed (txs : List Transaction) (pointsToSpend now : Int) :
    Except SpendError (List SpendResult) × List Transaction :=
  spendPointsWith (fun p => payerBalance txs p) txs pointsToSpend now

/-- The total amount a result list deducts from one payer: the sum of the
negations of its entries for that payer (on actual results every entry is
negative, so this is the sum of the absolute values; `0` when absent). -/
def deductionOf : List SpendResult → String → Int
  | [], _ => 0
  | r :: rs, p => (if r.payer = p then -r.points else 0) + deductionOf rs p

/-- Sum of the absolute values of the deductions of a result list. -/
def sumAbs (res : List SpendResult) : Int :=
  (res.map (fun r => |r.points|)).sum

deriving instance DecidableEq for Except

/-- The unconditional greedy walk the spec describes for debit-free ledgers:
every credit is drawn for `min(event amount, remaining)` with no ceiling
check.  Used to state that on all-credit ledgers the real walk coincides
with plain oldest-first greedy allocation. -/
def simpleStep (st : AllocState) (t : Transaction) : AllocState :=
  if st.remaining ≤ 0 then st
  else ⟨setA st.spending t.payer (getA st.spending t.payer + min t.points st.remaining),
    st.remaining - min t.points st.remaining⟩

/-- Folding `simpleStep` over the event list. -/
def simpleWalk (txs : List Transaction) (st : AllocState) : AllocState :=
  txs.foldl simpleStep st

/-- All stored values of the map are nonnegative. -/
def EntriesNonneg (m : PayerMap) : Prop := ∀ pv ∈ m, 0 ≤ pv.2

/-- The keys of the map are pairwise distinct. -/
def KeysNodup (m : PayerMap) : Prop := (m.map Prod.fst).Nodup

/-- All ways to insert `a` into a list. -/
def insertEverywhere (a : α) : List α → List (List α)
  | [] => [[a]]
  | b :: l => (a :: b :: l) :: (insertEverywhere a l).map (fun u => b :: u)

/-- All permutations of a list, by successive insertion (a structurally
recursive enumeration, so that finite quantifications over it evaluate). -/
def allPerms : List α → List (List α)
  | [] => [[]]
  | a :: l => (allPerms l).flatMap (insertEverywhere a)

/-- The five events of the reference scenario, in the insertion order the
spec lists them; timestamps are hours since 2024-06-30T00:00, so
`10 = 06-30T10:00`, `11 = 06-30T11:00`, `15 = 06-30T15:00`,
`38 = 07-01T14:00`, `62 = 07-02T14:00`. -/
def scenarioEvents : List Transaction :=
  [⟨"SHOPIFY", 300, 10⟩, ⟨"SHOPIFY", 1000, 62⟩, ⟨"EBAY", 200, 11⟩,
   ⟨"AMAZON", 10000, 38⟩, ⟨"SHOPIFY", -200, 15⟩]

/-- A ledger on which a fully-guarded spend still under-allocates: payer `A`
has a credit of 10 followed by a debit of 5 (net balance 5), payer `B` a
credit of 3, so the total balance is 8. -/
def partialLedger : List Transaction :=
  [⟨"A", 10, 1⟩, ⟨"A", -5, 2⟩, ⟨"B", 3, 3⟩]

/-- A ledger with a negative-balance payer: `A` has only a debit of 5,
`B` a credit of 10. -/
def negativePayerLedger : List Transaction :=
  [⟨"A", -5, 0⟩, ⟨"B", 10, 1⟩]

/-- A one-debit ledger with total balance `-5`. -/
def debitOnlyLedger : List Transaction :=
  [⟨"A", -5, 0⟩]

/-- The state invariant of the allocation walk: all spending entries are
nonnegative, keys are distinct, the remaining counter is nonnegative, and no
payer's committed spending exceeds `max (bal p) 0`. -/
def StInv (bal : String → Int) (st : AllocState) : Prop :=
  EntriesNonneg st.spending ∧ KeysNodup st.spending ∧ 0 ≤ st.remaining ∧
    ∀ p, getA st.spending p ≤ max (bal p) 0

theorem getA_setA (m : PayerMap) (k : String) (v : Int) (p : String) :
    getA (setA m k v) p = if k = p then v else getA m p := by
  induction m with
  | nil => by_cases h : k = p <;> simp [setA, getA, h]
  | cons hd tl ih =>
    obtain ⟨k', v'⟩ := hd
    by_cases h1 : k' = k
    · subst h1
      by_cases h2 : k' = p <;> simp [setA, getA, h2]
    · by_cases h2 : k' = p
      · subst h2
        have h3 : ¬ k = k' := fun h => h1 h.symm
        simp [setA, getA, h1, h3]
      · simp [setA, getA, h1, h2, ih]

theorem getA_nonneg {m : PayerMap} (h : EntriesNonneg m) (k : String) : 0 ≤ getA m k := by
  induction m with
  | nil => simp [getA]
  | cons hd tl ih =>
    obtain ⟨k', v'⟩ := hd
    by_cases h1 : k' = k
    · simpa [getA, h1] using h (k', v') (List.mem_cons_self _ _)
    · simp only [getA, h1, if_false]
      exact ih (fun pv hpv => h pv (List.mem_cons_of_mem _ hpv))

theorem entriesNonneg_setA {m : PayerMap} (h : EntriesNonneg m) {v : Int} (hv : 0 ≤ v)
    (k : String) : EntriesNonneg (setA m k v) := by
  induction m with
  | nil => intro pv hpv; simp only [setA, List.mem_singleton] at hpv; simp [hpv, hv]
  | cons hd tl ih =>
    obtain ⟨k', v'⟩ := hd
    by_cases h1 : k' = k
    · intro pv hpv
      simp only [setA, h1, if_true, List.mem_cons] at hpv
      rcases hpv with rfl | hpv
      · exact hv
      · exact h pv (List.mem_cons_of_mem _ hpv)
    · intro pv hpv
      simp only [setA, h1, if_false, List.mem_cons] at hpv
      rcases hpv with rfl | hpv
      · exact h (k', v') (List.mem_cons_self _ _)
      · exact ih (fun q hq => h q (List.mem_cons_of_mem _ hq)) pv hpv

theorem sumVals_setA (m : PayerMap) (k : String) (v : Int) :
    sumVals (setA m k v) = sumVals m - getA m k + v := by
  induction m with
  | nil => simp [setA, sumVals, getA]
  | cons hd tl ih =>
    obtain ⟨k', v'⟩ := hd
    by_cases h1 : k' = k
    · simp [setA, sumVals, getA, h1]; ring
    · simp [setA, sumVals, getA, h1, ih]; ring

theorem keys_setA (m : PayerMap) (k : String) (v : Int) :
    (setA m k v).map Prod.fst =
      if k ∈ m.map Prod.fst then m.map Prod.fst else m.map Prod.fst ++ [k] := by
  induction m with
  | nil => simp [setA]
  | cons hd tl ih =>
    obtain ⟨k', v'⟩ := hd
    by_cases h1 : k' = k
    · simp [setA, h1]
    · have h2 : ¬ k = k' := fun h => h1 h.symm
      by_cases h3 : k ∈ tl.map Prod.fst <;> simp [setA, h1, h2, h3, ih]

theorem keysNodup_setA {m : PayerMap} (h : KeysNodup m) (k : String) (v : Int) :
    KeysNodup (setA m k v) := by
  unfold KeysNodup at h ⊢
  rw [keys_setA]
  by_cases h1 : k ∈ m.map Prod.fst
  · simpa [h1] using h
  · simp only [h1, if_false]
    simpa [List.nodup_append, h1] using h

theorem keys_isPrefix_setA (m : PayerMap) (k : String) (v : Int) :
    m.map Prod.fst <+: (setA m k v).map Prod.fst := by
  rw [keys_setA]
  by_cases h1 : k ∈ m.map Prod.fst
  · simp [h1]
  · simp only [h1, if_false]
    exact ⟨[k], rfl⟩

theorem foldl_add_points (l : List Transaction) (a : Int) :
    l.foldl (fun s t => s + t.points) a = a + sumPoints l := by
  induction l generalizing a with
  | nil => simp [sumPoints]
  | cons t l ih => simp [sumPoints, ih]; ring

theorem getTotalPoints_eq (txs : List Transaction) : getTotalPoints txs = sumPoints txs := by
  simpa using foldl_add_points txs 0

theorem payerBalance_eq (txs : List Transaction) (p : String) :
    payerBalance txs p = payerSum p txs := by
  induction txs with
  | nil => simp [payerBalance, payerSum]
  | cons t l ih =>
    unfold payerBalance at ih ⊢
    by_cases h : t.payer = p
    · simp [List.filter_cons, h, payerSum, foldl_add_points, ← ih]
    · simp [List.filter_cons, h, payerSum, ih]

theorem getA_foldl_balance (l : List Transaction) (m : PayerMap) (p : String) :
    getA (l.foldl (fun m t => setA m t.payer (getA m t.payer + t.points)) m) p =
      getA m p + payerSum p l := by
  induction l generalizing m with
  | nil => simp [payerSum]
  | cons t l ih =>
    simp only [List.foldl_cons, payerSum, ih, getA_setA]
    by_cases h : t.payer = p <;> simp [h] <;> ring

theorem getA_buildBalanceMap (txs : List Transaction) (p : String) :
    getA (buildBalanceMap txs) p = payerSum p txs := by
  simpa [buildBalanceMap, getA] using getA_foldl_balance txs [] p

theorem sumPoints_eq_map_sum (l : List Transaction) :
    sumPoints l = (l.map (fun t => t.points)).sum := by
  induction l with
  | nil => simp [sumPoints]
  | cons t l ih => simp [sumPoints, ih]

theorem sumPoints_perm {l l' : List Transaction} (h : l.Perm l') :
    sumPoints l = sumPoints l' := by
  rw [sumPoints_eq_map_sum, sumPoints_eq_map_sum]
  exact (h.map _).sum_eq

theorem payerSum_eq_map_sum (p : String) (l : List Transaction) :
    payerSum p l = (l.map (fun t => if t.payer = p then t.points else 0)).sum := by
  induction l with
  | nil => simp [payerSum]
  | cons t l ih => simp [payerSum, ih]

theorem payerSum_perm (p : String) {l l' : List Transaction} (h : l.Perm l') :
    payerSum p l = payerSum p l' := by
  rw [payerSum_eq_map_sum, payerSum_eq_map_sum]
  exact (h.map _).sum_eq

theorem sortTransactions_perm (txs : List Transaction) :
    (sortTransactions txs).Perm txs := List.perm_insertionSort txLe txs

theorem payerSum_nonneg (p : String) {l : List Transaction}
    (h : ∀ t ∈ l, 0 ≤ t.points) : 0 ≤ payerSum p l := by
  induction l with
  | nil => simp [payerSum]
  | cons t l ih =>
    have h1 := h t (List.mem_cons_self _ _)
    have h2 := ih (fun u hu => h u (List.mem_cons_of_mem _ hu))
    unfold payerSum
    by_cases hp : t.payer = p <;> simp [hp] <;> omega

theorem sumPoints_nonneg {l : List Transaction} (h : ∀ t ∈ l, 0 ≤ t.points) :
    0 ≤ sumPoints l := by
  induction l with
  | nil => simp [sumPoints]
  | cons t l ih =>
    have h1 := h t (List.mem_cons_self _ _)
    have h2 := ih (fun u hu => h u (List.mem_cons_of_mem _ hu))
    unfold sumPoints
    omega

theorem allocStep_remaining_nonneg (bal : String → Int) (st : AllocState) (t : Transaction)
    (h : 0 ≤ st.remaining) : 0 ≤ (allocStep bal st t).remaining := by
  unfold allocStep
  split_ifs with h1 h2 h3 h4 h5 <;> (try simp only []) <;> omega

theorem allocStep_sum (bal : String → Int) (st : AllocState) (t : Transaction) :
    sumVals (allocStep bal st t).spending + (allocStep bal st t).remaining =
      sumVals st.spending + st.remaining := by
  unfold allocStep
  split_ifs with h1 h2 h3 h4 h5 <;> simp only [sumVals_setA] <;> ring

theorem allocStep_keys_isPrefix (bal : String → Int) (st : AllocState) (t : Transaction) :
    st.spending.map Prod.fst <+: (allocStep bal st t).spending.map Prod.fst := by
  unfold allocStep
  split_ifs with h1 h2 h3 h4 h5 <;>
    first
      | exact List.prefix_refl _
      | exact keys_isPrefix_setA _ _ _

theorem allocStep_inv (bal : String → Int) (st : AllocState) (t : Transaction)
    (h : StInv bal st) : StInv bal (allocStep bal st t) := by
  obtain ⟨hE, hK, hR, hB⟩ := h
  have hs0 : 0 ≤ getA st.spending t.payer := getA_nonneg hE t.payer
  unfold allocStep
  split_ifs with h1 h2 h3 h4 h5
  · exact ⟨hE, hK, hR, hB⟩
  · refine ⟨entriesNonneg_setA hE (by omega) _, keysNodup_setA hK _ _, by simp only []; omega, ?_⟩
    intro p
    simp only [getA_setA]
    by_cases hp : t.payer = p
    · subst hp; have := hB t.payer; omega
    · simp only [hp, if_false]; exact hB p
  · refine ⟨entriesNonneg_setA hE (by omega) _, keysNodup_setA hK _ _, by simp only []; omega, ?_⟩
    intro p
    simp only [getA_setA]
    by_cases hp : t.payer = p
    · subst hp; omega
    · simp only [hp, if_false]; exact hB p
  · exact ⟨hE, hK, hR, hB⟩
  · refine ⟨entriesNonneg_setA hE (by omega) _, keysNodup_setA hK _ _, by simp only []; omega, ?_⟩
    intro p
    simp only [getA_setA]
    by_cases hp : t.payer = p
    · subst hp; have := hB t.payer; omega
    · simp only [hp, if_false]; exact hB p
  · exact ⟨hE, hK, hR, hB⟩

theorem allocWalk_pres (bal : String → Int) (P : AllocState → Prop)
    (hstep : ∀ st t, P st → P (allocStep bal st t)) :
    ∀ (l : List Transaction) (st : AllocState), P st → P (allocWalk bal l st) := by
  intro l
  induction l with
  | nil => intro st h; simpa [allocWalk] using h
  | cons t l ih =>
    intro st h
    simpa [allocWalk] using ih (allocStep bal st t) (hstep st t h)

theorem allocWalk_inv (bal : String → Int) (l : List Transaction) (st : AllocState)
    (h : StInv bal st) : StInv bal (allocWalk bal l st) :=
  allocWalk_pres bal (StInv bal) (allocStep_inv bal) l st h

theorem allocWalk_sum (bal : String → Int) :
    ∀ (l : List Transaction) (st : AllocState),
      sumVals (allocWalk bal l st).spending + (allocWalk bal l st).remaining =
        sumVals st.spending + st.remaining := by
  intro l
  induction l with
  | nil => intro st; simp [allocWalk]
  | cons t l ih =>
    intro st
    have h1 := ih (allocStep bal st t)
    have h2 := allocStep_sum bal st t
    simp only [allocWalk, List.foldl_cons] at h1 ⊢
    omega

theorem payerSum_cons (p : String) (t : Transaction) (l : List Transaction) :
    payerSum p (t :: l) = (if t.payer = p then t.points else 0) + payerSum p l := rfl

theorem allocStep_skip (bal : String → Int) (st : AllocState) (t : Transaction)
    (h : st.remaining ≤ 0) : allocStep bal st t = st := by
  unfold allocStep
  rw [if_pos h]

theorem allocStep_zero (bal : String → Int) (st : AllocState) (t : Transaction)
    (h1 : ¬ st.remaining ≤ 0) (h2 : t.points = 0) (h3 : 0 ≤ getA st.spending t.payer) :
    allocStep bal st t = st := by
  unfold allocStep
  rw [if_neg h1, if_neg (by omega : ¬ 0 < t.points), if_neg]
  omega

theorem allocStep_commit (bal : String → Int) (st : AllocState) (t : Transaction)
    (h1 : ¬ st.remaining ≤ 0) (h2 : 0 < t.points)
    (h3 : 0 ≤ bal t.payer - getA st.spending t.payer - min t.points st.remaining) :
    allocStep bal st t =
      ⟨setA st.spending t.payer (getA st.spending t.payer + min t.points st.remaining),
        st.remaining - min t.points st.remaining⟩ := by
  unfold allocStep
  rw [if_neg h1, if_pos h2, if_pos h3]

theorem walk_remaining (bal : String → Int) :
    ∀ (l : List Transaction) (st : AllocState),
      (∀ t ∈ l, 0 ≤ t.points) → 0 ≤ st.remaining → EntriesNonneg st.spending →
      (∀ p, getA st.spending p + payerSum p l ≤ bal p) →
      (allocWalk bal l st).remaining = max (st.remaining - sumPoints l) 0 := by
  intro l
  induction l with
  | nil =>
    intro st _ hR _ _
    simp only [allocWalk, List.foldl_nil, sumPoints]
    omega
  | cons t l ih =>
    intro st hpos hR hE hceil
    have hpt : 0 ≤ t.points := hpos t (List.mem_cons_self _ _)
    have hpos' : ∀ u ∈ l, 0 ≤ u.points := fun u hu => hpos u (List.mem_cons_of_mem _ hu)
    have hs0 : 0 ≤ getA st.spending t.payer := getA_nonneg hE t.payer
    have hsum_l : 0 ≤ sumPoints l := sumPoints_nonneg hpos'
    have hceil_tl : ∀ p, getA st.spending p + payerSum p l ≤ bal p := by
      intro p
      have h := hceil p
      rw [payerSum_cons] at h
      by_cases hp : t.payer = p
      · rw [if_pos hp] at h; omega
      · rw [if_neg hp] at h; omega
    by_cases h1 : st.remaining ≤ 0
    · rw [allocWalk, List.foldl_cons, allocStep_skip bal st t h1]
      have := ih st hpos' hR hE hceil_tl
      rw [allocWalk] at this
      rw [this, sumPoints]
      omega
    · by_cases h2 : 0 < t.points
      · have hceil_t := hceil t.payer
        rw [payerSum_cons, if_pos rfl] at hceil_t
        have hps_l : 0 ≤ payerSum t.payer l := payerSum_nonneg _ hpos'
        have hguard : 0 ≤ bal t.payer - getA st.spending t.payer - min t.points st.remaining := by
          omega
        have hceil' : ∀ p,
            getA (setA st.spending t.payer
              (getA st.spending t.payer + min t.points st.remaining)) p + payerSum p l ≤
              bal p := by
          intro p
          rw [getA_setA]
          by_cases hp : t.payer = p
          · rw [if_pos hp, ← hp]; omega
          · rw [if_neg hp]; exact hceil_tl p
        have hrec := ih ⟨setA st.spending t.payer
              (getA st.spending t.payer + min t.points st.remaining),
            st.remaining - min t.points st.remaining⟩ hpos'
          (by simp only []; omega) (entriesNonneg_setA hE (by omega) _) hceil'
        rw [allocWalk, List.foldl_cons, allocStep_commit bal st t h1 h2 hguard]
        rw [allocWalk] at hrec
        rw [hrec, sumPoints]
        simp only []
        omega
      · have hpt0 : t.points = 0 := by omega
        rw [allocWalk, List.foldl_cons, allocStep_zero bal st t h1 hpt0 hs0]
        have := ih st hpos' hR hE hceil_tl
        rw [allocWalk] at this
        rw [this, sumPoints, hpt0]
        omega

theorem walk_eq_simple (bal : String → Int) :
    ∀ (l : List Transaction) (st : AllocState),
      (∀ t ∈ l, 0 < t.points) → 0 ≤ st.remaining → EntriesNonneg st.spending →
      (∀ p, getA st.spending p + payerSum p l ≤ bal p) →
      allocWalk bal l st = simpleWalk l st := by
  intro l
  induction l with
  | nil => intro st _ _ _ _; rfl
  | cons t l ih =>
    intro st hpos hR hE hceil
    have hpt : 0 < t.points := hpos t (List.mem_cons_self _ _)
    have hpos' : ∀ u ∈ l, 0 < u.points := fun u hu => hpos u (List.mem_cons_of_mem _ hu)
    have hs0 : 0 ≤ getA st.spending t.payer := getA_nonneg hE t.payer
    have hceil_tl : ∀ p, getA st.spending p + payerSum p l ≤ bal p := by
      intro p
      have h := hceil p
      rw [payerSum_cons] at h
      by_cases hp : t.payer = p
      · rw [if_pos hp] at h; omega
      · rw [if_neg hp] at h; omega
    by_cases h1 : st.remaining ≤ 0
    · rw [allocWalk, List.foldl_cons, allocStep_skip bal st t h1,
        simpleWalk, List.foldl_cons]
      have hsimple : simpleStep st t = st := by unfold simpleStep; rw [if_pos h1]
      rw [hsimple]
      exact ih st hpos' hR hE hceil_tl
    · have hceil_t := hceil t.payer
      rw [payerSum_cons, if_pos rfl] at hceil_t
      have hps_l : 0 ≤ payerSum t.payer l :=
        payerSum_nonneg _ (fun u hu => le_of_lt (hpos' u hu))
      have hguard : 0 ≤ bal t.payer - getA st.spending t.payer - min t.points st.remaining := by
        omega
      have hceil' : ∀ p,
          getA (setA st.spending t.payer
            (getA st.spending t.payer + min t.points st.remaining)) p + payerSum p l ≤
            bal p := by
        intro p
        rw [getA_setA]
        by_cases hp : t.payer = p
        · rw [if_pos hp, ← hp]; omega
        · rw [if_neg hp]; exact hceil_tl p
      have hsimple : simpleStep st t =
          ⟨setA st.spending t.payer (getA st.spending t.payer + min t.points st.remaining),
            st.remaining - min t.points st.remaining⟩ := by
        unfold simpleStep; rw [if_neg h1]
      rw [allocWalk, List.foldl_cons, allocStep_commit bal st t h1 hpt hguard,
        simpleWalk, List.foldl_cons, hsimple]
      exact ih _ hpos' (by simp only []; omega) (entriesNonneg_setA hE (by omega) _) hceil'

theorem resultOf_points_neg {m : PayerMap} {r : SpendResult} (h : r ∈ resultOf m) :
    r.points < 0 := by
  unfold resultOf at h
  rw [List.mem_map] at h
  obtain ⟨pv, hpv, rfl⟩ := h
  rw [List.mem_filter] at hpv
  have := of_decide_eq_true hpv.2
  simp only []
  omega

theorem resultOf_payers_eq (m : PayerMap) :
    (resultOf m).map (fun r => r.payer) =
      (m.filter (fun pv => decide (0 < pv.2))).map Prod.fst := by
  unfold resultOf
  rw [List.map_map]
  rfl

theorem resultOf_payers_sublist (m : PayerMap) :
    List.Sublist ((resultOf m).map (fun r => r.payer)) (m.map Prod.fst) := by
  rw [resultOf_payers_eq]
  exact (List.filter_sublist m).map Prod.fst

theorem resultOf_payers_nodup {m : PayerMap} (h : KeysNodup m) :
    ((resultOf m).map (fun r => r.payer)).Nodup :=
  List.Nodup.sublist (resultOf_payers_sublist m) h

theorem sumAbs_resultOf {m : PayerMap} (h : EntriesNonneg m) :
    sumAbs (resultOf m) = sumVals m := by
  induction m with
  | nil => rfl
  | cons pv m ih =>
    have hv : 0 ≤ pv.2 := h pv (List.mem_cons_self _ _)
    have h' : EntriesNonneg m := fun q hq => h q (List.mem_cons_of_mem _ hq)
    by_cases h2 : 0 < pv.2
    · unfold resultOf sumAbs at ih ⊢
      rw [List.filter_cons, if_pos (by simpa using h2)]
      simp only [List.map_cons, List.sum_cons, sumVals]
      rw [ih h']
      have : |(-pv.2)| = pv.2 := by rw [abs_neg, abs_of_nonneg hv]
      omega
    · have hv0 : pv.2 = 0 := by omega
      unfold resultOf sumAbs at ih ⊢
      rw [List.filter_cons, if_neg (by simpa using h2)]
      simp only [sumVals]
      rw [ih h', hv0]
      omega

theorem deductionOf_resultOf_not_mem {m : PayerMap} {p : String}
    (h : p ∉ m.map Prod.fst) : deductionOf (resultOf m) p = 0 := by
  induction m with
  | nil => rfl
  | cons pv m ih =>
    rw [List.map_cons, List.mem_cons] at h
    push_neg at h
    obtain ⟨h1, h2⟩ := h
    unfold resultOf at ih ⊢
    rw [List.filter_cons]
    by_cases h3 : 0 < pv.2
    · rw [if_pos (by simpa using h3)]
      simp only [List.map_cons, deductionOf]
      rw [if_neg (fun h => h1 h.symm), ih h2]
      omega
    · rw [if_neg (by simpa using h3)]
      exact ih h2

theorem getA_eq_zero_of_not_mem {m : PayerMap} {p : String}
    (h : p ∉ m.map Prod.fst) : getA m p = 0 := by
  induction m with
  | nil => rfl
  | cons pv m ih =>
    rw [List.map_cons, List.mem_cons] at h
    push_neg at h
    rw [getA, if_neg (fun hq => h.1 hq.symm)]
    exact ih h.2

theorem deductionOf_resultOf {m : PayerMap} (hK : KeysNodup m) (hE : EntriesNonneg m)
    (p : String) : deductionOf (resultOf m) p = max (getA m p) 0 := by
  induction m with
  | nil => rfl
  | cons pv m ih =>
    unfold KeysNodup at hK
    rw [List.map_cons, List.nodup_cons] at hK
    obtain ⟨hnot, hK'⟩ := hK
    have hv : 0 ≤ pv.2 := hE pv (List.mem_cons_self _ _)
    have hE' : EntriesNonneg m := fun q hq => hE q (List.mem_cons_of_mem _ hq)
    unfold resultOf at ih ⊢
    rw [List.filter_cons]
    by_cases h3 : 0 < pv.2
    · rw [if_pos (by simpa using h3)]
      simp only [List.map_cons, deductionOf]
      by_cases hp : pv.1 = p
      · rw [if_pos hp]
        have hnm : p ∉ m.map Prod.fst := hp ▸ hnot
        have hz := deductionOf_resultOf_not_mem hnm
        unfold resultOf at hz
        rw [hz, getA, if_pos hp]
        omega
      · rw [if_neg hp, ih hK' hE', getA, if_neg hp]
        omega
    · rw [if_neg (by simpa using h3)]
      have hv0 : pv.2 = 0 := by omega
      rw [ih hK' hE']
      by_cases hp : pv.1 = p
      · have hnm : p ∉ m.map Prod.fst := hp ▸ hnot
        rw [getA, if_pos hp, getA_eq_zero_of_not_mem hnm, hv0]
      · rw [getA, if_neg hp]

theorem spendPointsWith_ok {bal : String → Int} {txs : List Transaction} {x now : Int}
    {res : List SpendResult} {post : List Transaction}
    (h : spendPointsWith bal txs x now = (Except.ok res, post)) :
    0 ≤ x ∧ x ≤ getTotalPoints txs ∧
    res = resultOf (allocWalk bal (sortTransactions txs) ⟨[], x⟩).spending ∧
    post = txs ++ res.map (fun r => ⟨r.payer, r.points, now⟩) := by
  unfold spendPointsWith at h
  split_ifs at h with h1 h2
  · simp at h
  · simp at h
  · simp only [Prod.mk.injEq, Except.ok.injEq] at h
    obtain ⟨hr, hp⟩ := h
    subst hr
    exact ⟨by omega, by omega, rfl, hp.symm⟩

theorem spendPointsWith_ok_of (bal : String → Int) (txs : List Transaction)
    (x now : Int) (h1 : ¬ x < 0) (h2 : ¬ getTotalPoints txs < x) :
    spendPointsWith bal txs x now =
      (Except.ok (resultOf (allocWalk bal (sortTransactions txs) ⟨[], x⟩).spending),
        txs ++ (resultOf (allocWalk bal (sortTransactions txs) ⟨[], x⟩).spending).map
          (fun r => ⟨r.payer, r.points, now⟩)) := by
  unfold spendPointsWith
  rw [if_neg h1, if_neg h2]

theorem spendPointsWith_fst_now (bal : String → Int) (txs : List Transaction) (x now : Int) :
    (spendPointsWith bal txs x now).1 = (spendPointsWith bal txs x 0).1 := by
  unfold spendPointsWith
  split_ifs <;> rfl

theorem getBalances_append_results (txs : List Transaction) (res : List SpendResult) (n : Int) :
    getBalances (txs ++ res.map (fun r => (⟨r.payer, r.points, n⟩ : Transaction))) =
      res.foldl (fun b r => setA b r.payer (getA b r.payer + r.points)) (getBalances txs) := by
  unfold getBalances
  rw [List.foldl_append, List.foldl_map]

theorem getBalances_spend_now (bal : String → Int) (txs : List Transaction) (x now : Int) :
    getBalances (spendPointsWith bal txs x now).2 =
      getBalances (spendPointsWith bal txs x 0).2 := by
  unfold spendPointsWith
  split_ifs with h1 h2
  · rfl
  · rfl
  · simp only []
    rw [getBalances_append_results, getBalances_append_results]

theorem mem_insertEverywhere_append (a : α) :
    ∀ (u₁ u₂ : List α), (u₁ ++ a :: u₂) ∈ insertEverywhere a (u₁ ++ u₂) := by
  intro u₁
  induction u₁ with
  | nil => intro u₂; cases u₂ <;> simp [insertEverywhere]
  | cons b u₁ ih =>
    intro u₂
    simp only [List.cons_append, insertEverywhere, List.mem_cons, List.mem_map]
    exact Or.inr ⟨u₁ ++ a :: u₂, ih u₂, rfl⟩

theorem mem_allPerms_of_perm : ∀ {l₂ l₁ : List α}, l₁.Perm l₂ → l₁ ∈ allPerms l₂ := by
  intro l₂
  induction l₂ with
  | nil => intro l₁ h; simp [h.eq_nil, allPerms]
  | cons a l ih =>
    intro l₁ h
    have ha : a ∈ l₁ := h.mem_iff.mpr (List.mem_cons_self a l)
    obtain ⟨u₁, u₂, rfl⟩ := List.append_of_mem ha
    have hmid : (u₁ ++ a :: u₂).Perm (a :: (u₁ ++ u₂)) := List.perm_middle
    have htail : (u₁ ++ u₂).Perm l := (hmid.symm.trans h).cons_inv
    simp only [allPerms, List.mem_flatMap]
    exact ⟨u₁ ++ u₂, ih htail, mem_insertEverywhere_append a u₁ u₂⟩

theorem stInv_init (bal : String → Int) (x : Int) (hx : 0 ≤ x) :
    StInv bal ⟨[], x⟩ := by
  refine ⟨fun pv h => absurd h (List.not_mem_nil pv), by simp [KeysNodup], hx, fun p => ?_⟩
  show getA [] p ≤ max (bal p) 0
  rw [getA]
  exact le_max_right _ _

theorem ceil_init (txs : List Transaction) :
    ∀ p, getA ([] : PayerMap) p + payerSum p (sortTransactions txs) ≤
      getA (buildBalanceMap txs) p := by
  intro p
  rw [getA_buildBalanceMap, payerSum_perm p (sortTransactions_perm txs), getA]
  omega

theorem walk_final_inv (txs : List Transaction) (x : Int) (hx : 0 ≤ x) :
    StInv (fun p => getA (buildBalanceMap txs) p)
      (allocWalk (fun p => getA (buildBalanceMap txs) p) (sortTransactions txs) ⟨[], x⟩) :=
  allocWalk_inv _ _ _ (stInv_init _ x hx)

theorem walk_final_sum (txs : List Transaction) (x : Int) :
    sumVals (allocWalk (fun p => getA (buildBalanceMap txs) p)
        (sortTransactions txs) ⟨[], x⟩).spending +
      (allocWalk (fun p => getA (buildBalanceMap txs) p)
        (sortTransactions txs) ⟨[], x⟩).remaining = x := by
  have h := allocWalk_sum (fun p => getA (buildBalanceMap txs) p) (sortTransactions txs) ⟨[], x⟩
  simpa [sumVals] using h

theorem walk_final_rem_zero (txs : List Transaction) (x : Int) (hx : 0 ≤ x)
    (hle : x ≤ getTotalPoints txs) (hpos : ∀ t ∈ txs, 0 ≤ t.points) :
    (allocWalk (fun p => getA (buildBalanceMap txs) p)
      (sortTransactions txs) ⟨[], x⟩).remaining = 0 := by
  have hpos' : ∀ t ∈ sortTransactions txs, 0 ≤ t.points :=
    fun t ht => hpos t ((sortTransactions_perm txs).subset ht)
  have hrem := walk_remaining (fun p => getA (buildBalanceMap txs) p)
    (sortTransactions txs) ⟨[], x⟩ hpos' hx
    (fun pv h => absurd h (List.not_mem_nil pv)) (ceil_init txs)
  rw [hrem]
  have hsp : sumPoints (sortTransactions txs) = getTotalPoints txs := by
    rw [sumPoints_perm (sortTransactions_perm txs), getTotalPoints_eq]
  simp only []
  omega

/-- C1, counterexample: on `partialLedger` (total balance 8) the request 8
passes both guard checks and the call succeeds, yet only 3 points are
allocated — the debit replay both lowers payer A's precomputed ceiling and
reverses A's committed draw, stranding 5 points of the request. -/
theorem spend_partial_success_exists :
    0 ≤ (8 : Int) ∧ getTotalPoints partialLedger = 8 ∧
    (spendPoints partialLedger 8 9).1 = Except.ok [⟨"B", -3⟩] ∧
    sumAbs [(⟨"B", -3⟩ : SpendResult)] = 3 ∧ (3 : Int) < 8 := by decide

/-- C1 (amended): when the amount passes both guard checks, `spendPoints`
succeeds and allocates at most the requested amount; when the ledger has no
negative-amount events it allocates exactly the requested amount, but with
debits present a successful call can allocate strictly less (see the
counterexample). -/
theorem spend_allocates_at_most_requested (txs : List Transaction) (x now : Int)
    (hx : 0 ≤ x) (hle : x ≤ getTotalPoints txs) :
    ∃ res post, spendPoints txs x now = (Except.ok res, post) ∧ sumAbs res ≤ x ∧
      ((∀ t ∈ txs, 0 ≤ t.points) → sumAbs res = x) := by
  have h1 : ¬ x < 0 := by omega
  have h2 : ¬ getTotalPoints txs < x := by omega
  have hok := spendPointsWith_ok_of (fun p => getA (buildBalanceMap txs) p) txs x now h1 h2
  have hinv := walk_final_inv txs x hx
  have hsum := walk_final_sum txs x
  have hrem : 0 ≤ (allocWalk (fun p => getA (buildBalanceMap txs) p)
      (sortTransactions txs) ⟨[], x⟩).remaining := hinv.2.2.1
  refine ⟨_, _, hok, ?_, ?_⟩
  · rw [sumAbs_resultOf hinv.1]
    omega
  · intro hpos
    have hz := walk_final_rem_zero txs x hx hle hpos
    rw [sumAbs_resultOf hinv.1]
    omega

/-- C1 witness: a concrete fully-allocated spend obtained from the amended
theorem. -/
theorem spend_allocates_at_most_requested_witness :
    spendPoints [⟨"A", 5, 0⟩] 3 7 = (Except.ok [⟨"A", -3⟩], [⟨"A", 5, 0⟩, ⟨"A", -3, 7⟩]) ∧
    sumAbs [(⟨"A", -3⟩ : SpendResult)] ≤ 3 := by
  obtain ⟨res, post, hok, hle, -⟩ :=
    spend_allocates_at_most_requested [⟨"A", 5, 0⟩] 3 7 (by decide) (by decide)
  have hcalc : spendPoints [⟨"A", 5, 0⟩] 3 7 =
      (Except.ok [⟨"A", -3⟩], [⟨"A", 5, 0⟩, ⟨"A", -3, 7⟩]) := by decide
  have hres : res = [⟨"A", -3⟩] := by
    rw [hok] at hcalc
    simp only [Prod.mk.injEq, Except.ok.injEq] at hcalc
    exact hcalc.1
  exact ⟨hcalc, by rw [← hres]; exact hle⟩

/-- C4, counterexample: with a negative total balance, an amount strictly
greater than the total can still be negative, and then the first guard fires
instead: the call fails with the invalid-argument error, not the
insufficient-funds error. -/
theorem spend_negative_amount_over_total :
    getTotalPoints debitOnlyLedger < -1 ∧
    spendPoints debitOnlyLedger (-1) 7 ≠
      (Except.error (SpendError.insufficientFunds (getTotalPoints debitOnlyLedger) (-1)),
        debitOnlyLedger) ∧
    spendPoints debitOnlyLedger (-1) 7 =
      (Except.error (SpendError.invalidArgument "Points to spend must be positive"),
        debitOnlyLedger) := by decide

/-- C4 (amended): for every nonnegative amount strictly greater than the
total balance, `spendPoints` fails with the insufficient-funds error carrying
the available total and the requested amount, and the transaction list is
unchanged (negative amounts hit the invalid-argument guard first instead). -/
theorem spend_insufficient_fails (txs : List Transaction) (x now : Int)
    (hx : 0 ≤ x) (hgt : getTotalPoints txs < x) :
    spendPoints txs x now =
      (Except.error (SpendError.insufficientFunds (getTotalPoints txs) x), txs) := by
  unfold spendPoints spendPointsWith
  rw [if_neg (by omega : ¬ x < 0), if_pos hgt]

/-- C4 witness: requesting 1 from an empty ledger fails with
insufficient funds and leaves the ledger empty. -/
theorem spend_insufficient_fails_witness :
    spendPoints [] 1 0 = (Except.error (SpendError.insufficientFunds (getTotalPoints []) 1), []) :=
  spend_insufficient_fails [] 1 0 (by decide) (by decide)

/-- C5: the guard is `pointsToSpend < 0`, so an amount of exactly 0 — which
the spec, the code comment ("Validation: ensure positive amount") and the
error message ("Points to spend must be positive") all say must be rejected —
passes both guards and the call succeeds with an empty allocation. -/
theorem spend_zero_succeeds : spendPoints [] 0 99 = (Except.ok [], []) := by decide

/-- C10: the named service (precomputed balance map) and the unnamed variant
(per-iteration filter over the unmutated transaction list) return the same
result, the same error and the same final ledger on every input. -/
theorem spendPoints_eq_spendPointsUnnamed (txs : List Transaction) (x now : Int) :
    spendPoints txs x now = spendPointsUnnamed txs x now := by
  unfold spendPoints spendPointsUnnamed
  have hbal : (fun p => getA (buildBalanceMap txs) p) = fun p => payerBalance txs p := by
    funext p
    rw [getA_buildBalanceMap, payerBalance_eq]
  rw [hbal]

/-- C3, counterexample: on `negativePayerLedger` the spend of 3 succeeds,
payer A is absent from the result (deduction 0), but A's balance is -5, so
the deduction (0) exceeds A's balance: the claim's "or 0 if absent" case is
false for negative-balance payers. -/
theorem spend_absent_payer_exceeds_negative_balance :
    spendPoints negativePayerLedger 3 9 =
      (Except.ok [⟨"B", -3⟩], negativePayerLedger ++ [⟨"B", -3, 9⟩]) ∧
    deductionOf [(⟨"B", -3⟩ : SpendResult)] "A" = 0 ∧
    payerBalance negativePayerLedger "A" = -5 ∧
    ¬ deductionOf [(⟨"B", -3⟩ : SpendResult)] "A" ≤ payerBalance negativePayerLedger "A" := by
  decide

/-- C3 (amended): for every successful call, every payer's deduction is
nonnegative and never exceeds `max (balance) 0`; in particular any payer the
call actually deducts from (deduction strictly positive) has its deduction
bounded by its balance.  A payer with no entry has deduction 0, which can
exceed a strictly negative balance (see the counterexample).  Moreover, at
the step level, a credit iteration either keeps
`balance - already-allocated` nonnegative or commits nothing, and a clamped
draw sets the payer's allocation to exactly its balance (draining it to
zero). -/
theorem spend_deduction_le_balance (txs : List Transaction) (x now : Int)
    (res : List SpendResult) (post : List Transaction)
    (h : spendPoints txs x now = (Except.ok res, post)) :
    (∀ p, 0 ≤ deductionOf res p ∧
      deductionOf res p ≤ max (payerBalance txs p) 0 ∧
      (0 < deductionOf res p → deductionOf res p ≤ payerBalance txs p)) ∧
    (∀ bal st t, 0 < t.points → ¬ st.remaining ≤ 0 →
      0 ≤ bal t.payer - getA (allocStep bal st t).spending t.payer ∨
        getA (allocStep bal st t).spending t.payer = getA st.spending t.payer) ∧
    (∀ bal st t, 0 < t.points → ¬ st.remaining ≤ 0 →
      ¬ 0 ≤ bal t.payer - getA st.spending t.payer - min t.points st.remaining →
      0 < bal t.payer - getA st.spending t.payer →
      getA (allocStep bal st t).spending t.payer = bal t.payer) := by
  obtain ⟨hx0, hxle, hres, hpost⟩ := spendPointsWith_ok h
  subst hres
  have hinv := walk_final_inv txs x hx0
  refine ⟨?_, ?_, ?_⟩
  · intro p
    have hded := deductionOf_resultOf hinv.2.1 hinv.1 p
    have hbound : getA (allocWalk (fun p => getA (buildBalanceMap txs) p)
        (sortTransactions txs) ⟨[], x⟩).spending p ≤
        max (getA (buildBalanceMap txs) p) 0 := hinv.2.2.2 p
    have hbal : getA (buildBalanceMap txs) p = payerBalance txs p := by
      rw [getA_buildBalanceMap, payerBalance_eq]
    rw [hbal] at hbound
    rw [hded]
    refine ⟨by omega, by omega, by omega⟩
  · intro bal st t hpt hrem
    unfold allocStep
    rw [if_neg hrem, if_pos hpt]
    split_ifs with hg hc
    · left
      simp only [getA_setA, eq_self_iff_true, if_true]
      omega
    · left
      simp only [getA_setA, eq_self_iff_true, if_true]
      omega
    · right
      rfl
  · intro bal st t hpt hrem hg hc
    unfold allocStep
    rw [if_neg hrem, if_pos hpt, if_neg hg, if_pos hc]
    simp only [getA_setA, eq_self_iff_true, if_true]
    omega

/-- C3 witness: a concrete successful spend where the deduction bound is
instantiated at payer A. -/
theorem spend_deduction_le_balance_witness :
    0 ≤ deductionOf [(⟨"A", -3⟩ : SpendResult)] "A" ∧
    deductionOf [(⟨"A", -3⟩ : SpendResult)] "A" ≤ max (payerBalance [⟨"A", 5, 0⟩] "A") 0 := by
  have h := (spend_deduction_le_balance [⟨"A", 5, 0⟩] 3 7 [⟨"A", -3⟩]
    [⟨"A", 5, 0⟩, ⟨"A", -3, 7⟩] (by decide)).1 "A"
  exact ⟨h.1, h.2.1⟩

/-- C6: on a ledger whose events all have strictly positive amounts, for any
`0 < x ≤ total`, the real walk coincides with the unconditional oldest-first
greedy walk (each event drawn for `min(event amount, remaining)`), the call
succeeds and allocates exactly `x`, and no payer's deduction exceeds its
balance. -/
theorem spend_all_credits_greedy (txs : List Transaction) (x now : Int)
    (hpos : ∀ t ∈ txs, 0 < t.points) (hx : 0 < x) (hle : x ≤ getTotalPoints txs) :
    allocWalk (fun p => getA (buildBalanceMap txs) p) (sortTransactions txs) ⟨[], x⟩ =
      simpleWalk (sortTransactions txs) ⟨[], x⟩ ∧
    ∃ res post, spendPoints txs x now = (Except.ok res, post) ∧ sumAbs res = x ∧
      ∀ p, deductionOf res p ≤ payerBalance txs p := by
  have hx0 : 0 ≤ x := le_of_lt hx
  have hpos0 : ∀ t ∈ txs, 0 ≤ t.points := fun t ht => le_of_lt (hpos t ht)
  constructor
  · exact walk_eq_simple _ _ _
      (fun t ht => hpos t ((sortTransactions_perm txs).subset ht)) hx0
      (fun pv hpv => absurd hpv (List.not_mem_nil pv)) (ceil_init txs)
  · have h1 : ¬ x < 0 := by omega
    have h2 : ¬ getTotalPoints txs < x := by omega
    have hok := spendPointsWith_ok_of (fun p => getA (buildBalanceMap txs) p) txs x now h1 h2
    have hinv := walk_final_inv txs x hx0
    have hrem := walk_final_rem_zero txs x hx0 hle hpos0
    have hsum := walk_final_sum txs x
    refine ⟨_, _, hok, ?_, ?_⟩
    · rw [sumAbs_resultOf hinv.1]
      omega
    · intro p
      have hded := deductionOf_resultOf hinv.2.1 hinv.1 p
      have hbound : getA (allocWalk (fun p => getA (buildBalanceMap txs) p)
          (sortTransactions txs) ⟨[], x⟩).spending p ≤
          max (getA (buildBalanceMap txs) p) 0 := hinv.2.2.2 p
      have hbal : getA (buildBalanceMap txs) p = payerBalance txs p := by
        rw [getA_buildBalanceMap, payerBalance_eq]
      rw [hbal] at hbound
      have hpb : 0 ≤ payerBalance txs p := by
        rw [payerBalance_eq]
        exact payerSum_nonneg p hpos0
      rw [hded]
      omega

/-- C6 witness: on a two-credit ledger, spending 7 of the 10 available
coincides with the unconditional greedy walk and allocates exactly 7. -/
theorem spend_all_credits_greedy_witness :
    allocWalk (fun p => getA (buildBalanceMap [⟨"A", 5, 0⟩, ⟨"B", 5, 1⟩]) p)
        (sortTransactions [⟨"A", 5, 0⟩, ⟨"B", 5, 1⟩]) ⟨[], 7⟩ =
      simpleWalk (sortTransactions [⟨"A", 5, 0⟩, ⟨"B", 5, 1⟩]) ⟨[], 7⟩ ∧
    spendPoints [⟨"A", 5, 0⟩, ⟨"B", 5, 1⟩] 7 9 =
      (Except.ok [⟨"A", -5⟩, ⟨"B", -2⟩],
        [⟨"A", 5, 0⟩, ⟨"B", 5, 1⟩, ⟨"A", -5, 9⟩, ⟨"B", -2, 9⟩]) ∧
    sumAbs [(⟨"A", -5⟩ : SpendResult), ⟨"B", -2⟩] = 7 := by
  have h := spend_all_credits_greedy [⟨"A", 5, 0⟩, ⟨"B", 5, 1⟩] 7 9
    (by decide) (by decide) (by decide)
  exact ⟨h.1, by decide, by decide⟩

/-- C7: every successful call returns at most one entry per payer, all
entries strictly negative, listed in the key order of the spending map —
which, because a walk step only ever appends new keys (never reorders), is
the order in which payers were first drawn from. -/
theorem spend_result_entries (txs : List Transaction) (x now : Int)
    (res : List SpendResult) (post : List Transaction)
    (h : spendPoints txs x now = (Except.ok res, post)) :
    (res.map (fun r => r.payer)).Nodup ∧
    (∀ r ∈ res, r.points < 0) ∧
    res.map (fun r => r.payer) =
      ((allocWalk (fun p => getA (buildBalanceMap txs) p) (sortTransactions txs)
        ⟨[], x⟩).spending.filter (fun pv => decide (0 < pv.2))).map Prod.fst ∧
    ∀ (bal : String → Int) (st : AllocState) (t : Transaction),
      st.spending.map Prod.fst <+: (allocStep bal st t).spending.map Prod.fst := by
  obtain ⟨hx0, hxle, hres, hpost⟩ := spendPointsWith_ok h
  subst hres
  have hinv := walk_final_inv txs x hx0
  exact ⟨resultOf_payers_nodup hinv.2.1, fun r hr => resultOf_points_neg hr,
    resultOf_payers_eq _, fun bal st t => allocStep_keys_isPrefix bal st t⟩

/-- C7 witness: the single-entry result of a concrete spend has distinct
payers and negative entries. -/
theorem spend_result_entries_witness :
    (([(⟨"A", -3⟩ : SpendResult)]).map (fun r => r.payer)).Nodup ∧
    ((⟨"A", -3⟩ : SpendResult)).points < 0 := by
  have h := spend_result_entries [⟨"A", 5, 0⟩] 3 7 [⟨"A", -3⟩]
    [⟨"A", 5, 0⟩, ⟨"A", -3, 7⟩] (by decide)
  exact ⟨h.1, h.2.1 ⟨"A", -3⟩ (by decide)⟩

/-- C8: a successful call changes the ledger only by appending one event per
returned entry, with that entry's (negative) amount and the single shared
timestamp `now`; the pre-existing events are an unchanged prefix. -/
theorem spend_appends_results (txs : List Transaction) (x now : Int)
    (res : List SpendResult) (post : List Transaction)
    (h : spendPoints txs x now = (Except.ok res, post)) :
    post = txs ++ res.map (fun r => ⟨r.payer, r.points, now⟩) ∧
    txs <+: post ∧
    post.length = txs.length + res.length ∧
    ∀ e ∈ post.drop txs.length, e.points < 0 ∧ e.timestamp = now := by
  obtain ⟨hx0, hxle, hres, hpost⟩ := spendPointsWith_ok h
  subst hpost
  refine ⟨rfl, ⟨_, rfl⟩, by simp, ?_⟩
  rw [List.drop_left]
  intro e he
  rw [List.mem_map] at he
  obtain ⟨r, hr, rfl⟩ := he
  subst hres
  exact ⟨resultOf_points_neg hr, rfl⟩

/-- C8 witness: the post-call ledger of a concrete spend is the old ledger
plus the mapped result entries. -/
theorem spend_appends_results_witness :
    ([⟨"A", 5, 0⟩, ⟨"A", -3, 7⟩] : List Transaction) =
      [⟨"A", 5, 0⟩] ++ ([(⟨"A", -3⟩ : SpendResult)].map (fun r => ⟨r.payer, r.points, 7⟩)) :=
  (spend_appends_results [⟨"A", 5, 0⟩] 3 7 [⟨"A", -3⟩]
    [⟨"A", 5, 0⟩, ⟨"A", -3, 7⟩] (by decide)).1

/-- C9: the remaining-to-spend counter never goes negative at any walk step,
and consequently the sum of the absolute values of the deductions of a
successful call is at most the requested amount. -/
theorem spend_never_overdeducts :
    (∀ (bal : String → Int) (st : AllocState) (t : Transaction),
      0 ≤ st.remaining → 0 ≤ (allocStep bal st t).remaining) ∧
    ∀ (txs : List Transaction) (x now : Int) (res : List SpendResult)
      (post : List Transaction),
      spendPoints txs x now = (Except.ok res, post) → sumAbs res ≤ x := by
  refine ⟨allocStep_remaining_nonneg, ?_⟩
  intro txs x now res post h
  obtain ⟨hx0, hxle, hres, hpost⟩ := spendPointsWith_ok h
  subst hres
  have hinv := walk_final_inv txs x hx0
  have hsum := walk_final_sum txs x
  have hrem : 0 ≤ (allocWalk (fun p => getA (buildBalanceMap txs) p)
      (sortTransactions txs) ⟨[], x⟩).remaining := hinv.2.2.1
  rw [sumAbs_resultOf hinv.1]
  omega

/-- C9 witness: the step fact at a concrete state and the bound at a
concrete successful spend. -/
theorem spend_never_overdeducts_witness :
    0 ≤ (allocStep (fun _ => (5 : Int)) ⟨[], 3⟩ ⟨"A", 5, 0⟩).remaining ∧
    sumAbs [(⟨"A", -3⟩ : SpendResult)] ≤ 3 := by
  refine ⟨spend_never_overdeducts.1 (fun _ => 5) ⟨[], 3⟩ ⟨"A", 5, 0⟩ (by decide), ?_⟩
  exact spend_never_overdeducts.2 [⟨"A", 5, 0⟩] 3 7 [⟨"A", -3⟩]
    [⟨"A", 5, 0⟩, ⟨"A", -3, 7⟩] (by decide)

set_option maxRecDepth 80000 in
/-- C2: starting from an empty ledger, after adding the five scenario events
in any insertion order, `spendPoints 5000` returns exactly
`[{SHOPIFY,-100}, {EBAY,-200}, {AMAZON,-4700}]` and a subsequent
`getBalances` holds exactly `{SHOPIFY: 1000, EBAY: 0, AMAZON: 5300}` (as a
key-value collection; its key order depends on the insertion order, hence
the permutation in the conclusion). -/
theorem scenario_spend (txs : List Transaction) (now : Int)
    (h : txs.Perm scenarioEvents) :
    (spendPoints txs 5000 now).1 =
      Except.ok [⟨"SHOPIFY", -100⟩, ⟨"EBAY", -200⟩, ⟨"AMAZON", -4700⟩] ∧
    (getBalances (spendPoints txs 5000 now).2).Perm
      [("SHOPIFY", 1000), ("EBAY", 0), ("AMAZON", 5300)] := by
  have hmem : txs ∈ allPerms scenarioEvents := mem_allPerms_of_perm h
  have hdec : ∀ u ∈ allPerms scenarioEvents,
      (spendPoints u 5000 0).1 =
        Except.ok [⟨"SHOPIFY", -100⟩, ⟨"EBAY", -200⟩, ⟨"AMAZON", -4700⟩] ∧
      (getBalances (spendPoints u 5000 0).2).Perm
        [("SHOPIFY", 1000), ("EBAY", 0), ("AMAZON", 5300)] := by decide
  have h0 := hdec txs hmem
  constructor
  · show (spendPointsWith _ txs 5000 now).1 = _
    rw [spendPointsWith_fst_now]
    exact h0.1
  · show (getBalances (spendPointsWith _ txs 5000 now).2).Perm _
    rw [getBalances_spend_now]
    exact h0.2

/-- C2 witness: the scenario in its listed insertion order, with an
arbitrary concrete spend timestamp. -/
theorem scenario_spend_witness :
    (spendPoints scenarioEvents 5000 123).1 =
      Except.ok [⟨"SHOPIFY", -100⟩, ⟨"EBAY", -200⟩, ⟨"AMAZON", -4700⟩] ∧
    (getBalances (spendPoints scenarioEvents 5000 123).2).Perm
      [("SHOPIFY", 1000), ("EBAY", 0), ("AMAZON", 5300)] :=
  scenario_spend scenarioEvents 123 (List.Perm.refl scenarioEvents)
